import Mathlib

/-!
Verification of the gamelist reconciliation core (`src/XMLReader.cpp`) of
EmulationStation: path containment (`removeCommonPath`), the catalog tree
lookup-or-create (`findOrCreateFile`), the gamelist loader (`parseGamelist`)
and the gamelist writer (`addFileDataNode` / `updateGamelist`).

Filesystem paths are embedded as their boost component sequences: a
`List String` whose first component is `"/"` for absolute POSIX paths
(e.g. `/home/pi/roms` becomes `["/", "home", "pi", "roms"]`, and a trailing
directory separator contributes a final `"."` component, as with
`boost::filesystem::path` iteration).  `fs::canonical` is an effectful
operation on the ambient filesystem (it resolves symlinks and fails on a
missing path), so it is passed around as an explicit parameter
`canon : List String → Option (List String)`, `none` standing for the
`filesystem_error` thrown on a non-existent path.
-/

/-- Last component of a path, `""` for the empty path
(`boost::filesystem::path::filename`, restricted to our component lists). -/
def filename (p : List String) : String := p.getLastD ""

/-- Stem of a single path component: everything before the last dot, the
component itself when it has no dot or is `"."` or `".."`
(`boost::filesystem::path::stem` on the filename, boost v3 semantics: a name
such as `".bashrc"` stems to `""`). -/
def stemOfName (n : String) : String :=
  if n = "." || n = ".." then n
  else
    match (n.toList.reverse).findIdx? (fun c => c = '.') with
    | none => n
    | some i => String.mk ((n.toList.reverse.drop (i + 1)).reverse)

/-- `p.stem()` as a path: the one-component path holding the stem of the
filename, or the empty path when the stem is empty. -/
def stemPath (p : List String) : List String :=
  let s := stemOfName (filename p)
  if s = "" then [] else [s]

/-- `boost::filesystem::path::root_path` on POSIX component lists: `["/"]`
for an absolute path, the empty path otherwise. -/
def rootPathOf (p : List String) : List String :=
  if p.head? = some "/" then ["/"] else []

/-- `path::generic_string()`: the components joined with `/` separators. -/
def genericString (p : List String) : String :=
  match p with
  | [] => ""
  | "/" :: rest => "/" ++ String.intercalate "/" rest
  | comps => String.intercalate "/" comps

/-- Separator-wise grouping of a character list: the groups of characters
between `/` separators (possibly empty groups). -/
def splitOnSlash : List Char → List (List Char)
  | [] => [[]]
  | c :: rest =>
    match splitOnSlash rest with
    | [] => []
    | g :: gs => if c = '/' then [] :: g :: gs else (c :: g) :: gs

/-- Decomposition of a slash-separated path string into boost components:
a leading `/` yields a `"/"` root component, a trailing `/` after at least
one name yields a final `"."` component. -/
def pathOfString (s : String) : List String :=
  let cs := s.toList
  let core := ((splitOnSlash cs).map (fun g => String.mk g)).filter (fun c => c ≠ "")
  let withTrail := if cs.getLast? = some '/' ∧ core ≠ [] then core ++ ["."] else core
  if cs.head? = some '/' then "/" :: withTrail else withTrail

/-- The shared-prefix walk of `removeCommonPath` (`XMLReader.cpp:25-31`).
The C++ loop advances two component iterators in lockstep while
`*itr_path == *itr_relative_to && itr_path != p.end() && itr_relative_to != r.end()`;
dereferencing boost's end iterator yields the empty element, so the loop
stops as soon as either sequence is exhausted or the components differ.
`walkCount` returns the index at which the loop stops. -/
def walkCount : List String → List String → Nat
  | p :: ps, r :: rs => if p = r then walkCount ps rs + 1 else 0
  | _, _ => 0

/-- Instrumentation of the walk's memory safety: the loop's condition is
evaluated one final time at the stopping index, and its first conjunct
dereferences both iterators before the end checks run.  `derefsEnd` is true
exactly when that final evaluation dereferences an iterator that equals
`end()` of its component sequence. -/
def derefsEnd (pc rc : List String) : Bool :=
  pc.length ≤ walkCount pc rc || rc.length ≤ walkCount pc rc

/-- `removeCommonPath` (`XMLReader.cpp:11-49`): canonicalize both paths
(propagating failure of `fs::canonical` as `none`), compare root paths,
consume the shared component prefix, and return either the canonical `path`
with `contains = false` or the remaining suffix (skipping literal `"."`
components) with `contains = true`. -/
def removeCommonPath (canon : List String → Option (List String))
    (path relativeTo : List String) : Option (List String × Bool) :=
  match canon path, canon relativeTo with
  | some p, some r =>
    if rootPathOf p ≠ rootPathOf r then some (p, false)
    else
      let i := walkCount p r
      if i < r.length then some (p, false)
      else some ((p.drop i).filter (fun c => c ≠ "."), true)
  | _, _ => none

theorem walkCount_le_left (pc rc : List String) : walkCount pc rc ≤ pc.length := by
  induction pc generalizing rc with
  | nil => simp [walkCount]
  | cons p ps ih =>
    cases rc with
    | nil => simp [walkCount]
    | cons r rs =>
      simp only [walkCount]
      split
      · simpa using ih rs
      · simp

theorem walkCount_of_take (cp cr : List String)
    (htake : cp.take cr.length = cr) (hlt : cr.length < cp.length)
    (hne : "" ∉ cp) : walkCount cp cr = cr.length := by
  induction cr generalizing cp with
  | nil =>
    cases cp with
    | nil => simp at hlt
    | cons p ps => simp [walkCount]
  | cons r rs ih =>
    cases cp with
    | nil => simp at hlt
    | cons p ps =>
      simp only [List.length_cons, List.take_succ_cons, List.cons.injEq] at htake
      obtain ⟨hpr, htake'⟩ := htake
      have hlt' : rs.length < ps.length := by
        simpa using hlt
      have hne' : "" ∉ ps := fun h => hne (by simp [h])
      simp only [walkCount, hpr, List.length_cons]
      rw [if_pos trivial, ih ps htake' hlt' hne']

/-- C1: for every path `p` existing on disk (so `canon p` succeeds with
canonical form `cp`) strictly inside the canonical form `cr` of an existing
root `r`, `removeCommonPath` returns `contained = true` together with the
relative suffix of `cp` past `cr` (the source filters out literal `"."`
components, which a canonical path does not contain), and joining `r` with
that relative path yields a path equivalent to `p` (same canonical form).
The hypothesis `hap` records the filesystem fact that appending the suffix
to `r` resolves the same way as appending it to `r`'s canonical form. -/
theorem removeCommonPath_strictly_inside
    (canon : List String → Option (List String)) (p r cp cr : List String)
    (hp : canon p = some cp) (hr : canon r = some cr)
    (htake : cp.take cr.length = cr) (hlt : cr.length < cp.length)
    (hroot : cr.head? = some "/") (hnodot : "." ∉ cp) (hnoemp : "" ∉ cp)
    (hap : canon (r ++ cp.drop cr.length) = some cp) :
    removeCommonPath canon p r = some (cp.drop cr.length, true) ∧
    cr ++ cp.drop cr.length = cp ∧
    canon (r ++ cp.drop cr.length) = canon p := by
  obtain ⟨cr0, crs, rfl⟩ : ∃ cr0 crs, cr = cr0 :: crs := by
    cases cr with
    | nil => simp at hroot
    | cons a l => exact ⟨a, l, rfl⟩
  have hcr0 : cr0 = "/" := by simpa using hroot
  obtain ⟨cp0, cps, rfl⟩ : ∃ cp0 cps, cp = cp0 :: cps := by
    cases cp with
    | nil => simp at hlt
    | cons a l => exact ⟨a, l, rfl⟩
  have hcp0 : cp0 = cr0 := by
    have := congrArg List.head? htake
    simpa using this
  have hwalk : walkCount (cp0 :: cps) (cr0 :: crs) = (cr0 :: crs).length :=
    walkCount_of_take _ _ htake hlt hnoemp
  have hfilter :
      ((cp0 :: cps).drop (cr0 :: crs).length).filter (fun c => c ≠ ".") =
        (cp0 :: cps).drop (cr0 :: crs).length := by
    rw [List.filter_eq_self]
    intro a ha
    have : a ∈ cp0 :: cps := List.mem_of_mem_drop ha
    have hane : a ≠ "." := fun h => hnodot (h ▸ this)
    simpa using hane
  have hjoin : (cr0 :: crs) ++ (cp0 :: cps).drop (cr0 :: crs).length = cp0 :: cps := by
    conv_rhs => rw [← List.take_append_drop (cr0 :: crs).length (cp0 :: cps)]
    rw [htake]
  have hrootp : rootPathOf (cp0 :: cps) = rootPathOf (cr0 :: crs) := by
    simp [rootPathOf, hcp0]
  refine ⟨?_, hjoin, by rw [hap, hp]⟩
  simp only [removeCommonPath, hp, hr]
  rw [if_neg (by simp [hrootp]), hwalk, if_neg (by omega), hfilter]

/-- Concrete paths of the spec's own example:
`removeCommonPath("/home/pi/roms/nes/foo/bar.nes", "/home/pi/roms/nes/")`. -/
def pExample : List String := ["/", "home", "pi", "roms", "nes", "foo", "bar.nes"]

/-- The root of the example, with the trailing-slash `"."` component kept. -/
def rExample : List String := ["/", "home", "pi", "roms", "nes", "."]

/-- Canonical form of the example root. -/
def crExample : List String := ["/", "home", "pi", "roms", "nes"]

/-- A concrete canonicalization function for the example filesystem: the
game path and the root exist (the root canonicalizes by dropping its
trailing `"."` component), everything else does not exist. -/
def canonExample (q : List String) : Option (List String) :=
  if q = pExample then some pExample
  else if q = rExample then some crExample
  else if q = crExample then some crExample
  else if q = rExample ++ ["foo", "bar.nes"] then some pExample
  else if q = crExample ++ ["foo", "bar.nes"] then some pExample
  else none

theorem removeCommonPath_strictly_inside_witness :
    removeCommonPath canonExample pExample rExample = some (["foo", "bar.nes"], true) ∧
    canonExample (rExample ++ ["foo", "bar.nes"]) = canonExample pExample := by
  have h := removeCommonPath_strictly_inside canonExample pExample rExample pExample crExample
    (by decide) (by decide) (by decide) (by decide) (by decide) (by decide) (by decide) (by decide)
  exact ⟨h.1, h.2.2⟩

/-- C10: the shared-prefix walk of `removeCommonPath` does dereference an
end iterator.  On the spec's own example — where the canonical root's
components are a proper prefix of the path's components, i.e. exactly the
success path of the containment check — the loop's final condition
evaluation happens at the index equal to the root's component count, so the
first conjunct `*itr_path == *itr_relative_to` dereferences
`itr_relative_to == r.end()` before the end checks are reached. -/
theorem derefsEnd_on_contained_walk :
    derefsEnd pExample crExample = true ∧
    pExample.take crExample.length = crExample ∧
    crExample.length < pExample.length := by decide

/-- The two entry kinds handled by the gamelist core (`FileType`). -/
inductive FileType where
  | GAME : FileType
  | FOLDER : FileType
deriving DecidableEq

/-- Modelled from the spec: the default name the external metadata model
derives from a path — the file name without its extension (§3, §6
`defaultNameFor`; the source calls `getCleanFileName`, which is outside
this core). -/
def getCleanFileName (p : List String) : String := stemOfName (filename p)

/-- Modelled from the spec: an Entry of the catalog tree (§3) — kind,
absolute path, ordered string-to-string metadata, and ordered children.
The `FileData` class itself lives outside `src/`; per §3 its children keep
first-seen insertion order (`addChild` appends) and a parent back-reference
is used only for traversal, so it is not represented here. -/
inductive FileData where
  | mk : FileType → List String → List (String × String) → List FileData → FileData

/-- Kind of an entry. -/
def FileData.ftype : FileData → FileType
  | .mk t _ _ _ => t

/-- Path of an entry. -/
def FileData.path : FileData → List String
  | .mk _ p _ _ => p

/-- Metadata of an entry. -/
def FileData.metadata : FileData → List (String × String)
  | .mk _ _ m _ => m

/-- Children of an entry, in insertion order. -/
def FileData.children : FileData → List FileData
  | .mk _ _ _ cs => cs

theorem FileData.eta (fd : FileData) :
    FileData.mk fd.ftype fd.path fd.metadata fd.children = fd := by
  cases fd
  rfl

/-- Modelled from the spec: metadata of a freshly constructed Entry.  The
`FileData` constructor is outside `src/`; §3 guarantees a fresh Entry's
metadata resolves its `"name"` key to the default derived from its path. -/
def initMeta (p : List String) : List (String × String) :=
  [("name", getCleanFileName p)]

/-- The child search of `findOrCreateFile` (`XMLReader.cpp:71-79`): find
the first child whose path's final component equals the current path
component, returning the siblings before it, the child, and the siblings
after it. -/
def findChildSplit : List FileData → String → Option (List FileData × FileData × List FileData)
  | [], _ => none
  | c :: cs, s =>
    if filename c.path = s then some ([], c, cs)
    else
      match findChildSplit cs s with
      | none => none
      | some (b, h, a) => some (c :: b, h, a)

/-- The component walk of `findOrCreateFile` (`XMLReader.cpp:64-117`),
with the mutation made explicit: the result is the position of the
found-or-created entry inside the (returned) updated tree, as a list of
child indices, or `none` when the walk fails.  An empty component list
falls through the loop and returns null; at the last component a match is
returned as-is, a missing Game is created as a child of the current node
(from the *original* `path` argument), and a missing Folder fails; at an
intermediate component a missing child fails for Folder requests and
otherwise creates a folder whose path is the current node's path *stem*
joined with the component (`XMLReader.cpp:109`). -/
def goFoc : FileData → List String → FileType → List String → (Option (List Nat) × FileData)
  | node, [], _, _ => (none, node)
  | node, [c], t, p =>
    match findChildSplit node.children c with
    | some (b, _, _) => (some [b.length], node)
    | none =>
      if t = FileType.FOLDER then (none, node)
      else
        (some [node.children.length],
          FileData.mk node.ftype node.path node.metadata
            (node.children ++ [FileData.mk t p (initMeta p) []]))
  | node, c :: c2 :: rest, t, p =>
    match findChildSplit node.children c with
    | some (b, h, a) =>
      let r := goFoc h (c2 :: rest) t p
      (r.1.map (fun q => b.length :: q),
        FileData.mk node.ftype node.path node.metadata (b ++ r.2 :: a))
    | none =>
      if t = FileType.FOLDER then (none, node)
      else
        let fpath := stemPath node.path ++ [c]
        let r := goFoc (FileData.mk FileType.FOLDER fpath (initMeta fpath) []) (c2 :: rest) t p
        (r.1.map (fun q => node.children.length :: q),
          FileData.mk node.ftype node.path node.metadata (node.children ++ [r.2]))

/-- The pure lookup part of the walk: the position the walk reaches when
it only ever descends through existing children, `none` as soon as some
component (intermediate or last) has no matching child. -/
def walkFind : FileData → List String → Option (List Nat)
  | _, [] => none
  | node, [c] =>
    match findChildSplit node.children c with
    | some (b, _, _) => some [b.length]
    | none => none
  | node, c :: c2 :: rest =>
    match findChildSplit node.children c with
    | some (b, h, _) => (walkFind h (c2 :: rest)).map (fun q => b.length :: q)
    | none => none

/-- `findOrCreateFile` (`XMLReader.cpp:51-118`): verify containment of
`path` in the root folder's path via `removeCommonPath`, then walk the
relative components.  The outer `Option` is `none` when `fs::canonical`
throws (the exception escapes the function); a contained-check failure
logs and returns null with the tree untouched. -/
def findOrCreateFile (canon : List String → Option (List String))
    (root : FileData) (path : List String) (t : FileType) :
    Option (Option (List Nat) × FileData) :=
  match removeCommonPath canon path root.path with
  | none => none
  | some (_, false) => some (none, root)
  | some (rel, true) => some (goFoc root rel t path)

/-- Node of a tree at a child-index position. -/
def nodeAt : FileData → List Nat → Option FileData
  | fd, [] => some fd
  | fd, i :: rest =>
    match fd.children[i]? with
    | some c => nodeAt c rest
    | none => none

/-- Replace the child at one index of a sibling list. -/
def modifyChild : List FileData → Nat → (FileData → FileData) → List FileData
  | [], _, _ => []
  | c :: cs, 0, g => g c :: cs
  | c :: cs, n + 1, g => c :: modifyChild cs n g

/-- Apply a function to the node at a child-index position. -/
def modifyAt : FileData → List Nat → (FileData → FileData) → FileData
  | fd, [], g => g fd
  | fd, i :: rest, g =>
    FileData.mk fd.ftype fd.path fd.metadata
      (modifyChild fd.children i (fun c => modifyAt c rest g))

/-- Replace the metadata of a node. -/
def setMetadataFD (fd : FileData) (md : List (String × String)) : FileData :=
  FileData.mk fd.ftype fd.path md fd.children

@[simp] theorem FileData.ftype_mk (t p m cs) : (FileData.mk t p m cs).ftype = t := rfl

@[simp] theorem FileData.path_mk (t p m cs) : (FileData.mk t p m cs).path = p := rfl

@[simp] theorem FileData.metadata_mk (t p m cs) : (FileData.mk t p m cs).metadata = m := rfl

@[simp] theorem FileData.children_mk (t p m cs) : (FileData.mk t p m cs).children = cs := rfl

theorem filename_concat (xs : List String) (c : String) : filename (xs ++ [c]) = c := by
  simp [filename]

theorem findChildSplit_none {s : String} :
    ∀ {cs : List FileData}, findChildSplit cs s = none → ∀ x ∈ cs, filename x.path ≠ s
  | [], _, x, hx => by simp at hx
  | c :: rest, h, x, hx => by
    by_cases hc : filename c.path = s
    · exact absurd h (by simp [findChildSplit, hc])
    · rcases List.mem_cons.mp hx with rfl | hx'
      · exact hc
      · have hrec : findChildSplit rest s = none := by
          match hr : findChildSplit rest s with
          | none => rfl
          | some (b, hd, a) => simp [findChildSplit, if_neg hc, hr] at h
        exact findChildSplit_none hrec x hx'

theorem findChildSplit_some {s : String} :
    ∀ {cs b a : List FileData} {hd : FileData}, findChildSplit cs s = some (b, hd, a) →
      cs = b ++ hd :: a ∧ filename hd.path = s ∧ ∀ x ∈ b, filename x.path ≠ s
  | [], b, a, hd, h => by simp [findChildSplit] at h
  | c :: rest, b, a, hd, h => by
    by_cases hc : filename c.path = s
    · simp only [findChildSplit, if_pos hc, Option.some.injEq, Prod.mk.injEq] at h
      obtain ⟨hb, hhd, ha⟩ := h
      subst hb; subst hhd; subst ha
      exact ⟨rfl, hc, by simp⟩
    · simp only [findChildSplit, if_neg hc] at h
      match hr : findChildSplit rest s with
      | none => rw [hr] at h; exact absurd h (by simp)
      | some (b', hd', a') =>
        rw [hr] at h
        simp only [Option.some.injEq, Prod.mk.injEq] at h
        obtain ⟨hb, hhd, ha⟩ := h
        subst hb; subst hhd; subst ha
        obtain ⟨h1, h2, h3⟩ := findChildSplit_some hr
        refine ⟨by rw [h1]; rfl, h2, ?_⟩
        intro x hx
        rcases List.mem_cons.mp hx with rfl | hx'
        · exact hc
        · exact h3 x hx'

theorem findChildSplit_parts {s : String} :
    ∀ (b : List FileData) (hd : FileData) (a : List FileData),
      (∀ x ∈ b, filename x.path ≠ s) → filename hd.path = s →
      findChildSplit (b ++ hd :: a) s = some (b, hd, a)
  | [], hd, a, _, hhd => by simp [findChildSplit, hhd]
  | c :: b', hd, a, hb, hhd => by
    have hc : filename c.path ≠ s := hb c (by simp)
    have hrec := findChildSplit_parts b' hd a (fun x hx => hb x (by simp [hx])) hhd
    simp only [List.cons_append, findChildSplit, if_neg hc, List.append_eq]
    rw [hrec]

theorem goFoc_fields (node : FileData) (comps : List String) (t : FileType) (p : List String) :
    (goFoc node comps t p).2.ftype = node.ftype ∧
    (goFoc node comps t p).2.path = node.path ∧
    (goFoc node comps t p).2.metadata = node.metadata := by
  match comps with
  | [] => simp [goFoc]
  | [c] =>
    match hfc : findChildSplit node.children c with
    | some (b, hd, a) => simp [goFoc, hfc]
    | none =>
      by_cases ht : t = FileType.FOLDER
      · simp [goFoc, hfc, ht]
      · simp [goFoc, hfc, ht]
  | c :: c2 :: rest =>
    match hfc : findChildSplit node.children c with
    | some (b, hd, a) => simp [goFoc, hfc]
    | none =>
      by_cases ht : t = FileType.FOLDER
      · simp [goFoc, hfc, ht]
      · simp [goFoc, hfc, ht]

theorem goFoc_folder_pure (comps : List String) :
    ∀ (node : FileData) (p : List String),
      goFoc node comps FileType.FOLDER p = (walkFind node comps, node) := by
  induction comps with
  | nil => intro node p; simp [goFoc, walkFind]
  | cons c cs ih =>
    intro node p
    cases cs with
    | nil =>
      match hfc : findChildSplit node.children c with
      | some (b, hd, a) => simp [goFoc, walkFind, hfc]
      | none => simp [goFoc, walkFind, hfc]
    | cons c2 rest =>
      match hfc : findChildSplit node.children c with
      | none => simp [goFoc, walkFind, hfc]
      | some (b, hd, a) =>
        have hsplit := findChildSplit_some hfc
        have htree : FileData.mk node.ftype node.path node.metadata (b ++ hd :: a) = node := by
          rw [← hsplit.1]
          exact FileData.eta node
        simp only [goFoc, walkFind, hfc, ih hd p]
        rw [htree]

theorem ite_game_folder {α : Sort u_1} (x y : α) :
    (if FileType.GAME = FileType.FOLDER then x else y) = y := by
  rw [if_neg]
  intro h
  exact FileType.noConfusion h

theorem goFoc_game_idem (comps : List String) :
    ∀ (node : FileData) (p : List String),
      (comps = [] ∨ comps.getLast? = some (filename p)) →
      goFoc (goFoc node comps FileType.GAME p).2 comps FileType.GAME p =
        goFoc node comps FileType.GAME p := by
  induction comps with
  | nil => intro node p _; simp [goFoc]
  | cons c cs ih =>
    intro node p hlast
    cases cs with
    | nil =>
      have hc : c = filename p := by
        rcases hlast with h | h
        · simp at h
        · simpa using h
      match hfc : findChildSplit node.children c with
      | some (b, hd, a) => simp [goFoc, hfc]
      | none =>
        have hnone := findChildSplit_none hfc
        have hfile : filename (FileData.mk FileType.GAME p (initMeta p) []).path = c := by
          simp [hc]
        have hsplit2 := findChildSplit_parts node.children
          (FileData.mk FileType.GAME p (initMeta p) []) [] hnone hfile
        simp [goFoc, hfc, hsplit2]
    | cons c2 rest =>
      have hlast' : (c2 :: rest) = [] ∨ (c2 :: rest).getLast? = some (filename p) := by
        rcases hlast with h | h
        · simp at h
        · right
          simpa using h
      match hfc : findChildSplit node.children c with
      | some (b, hd, a) =>
        have hsplit := findChildSplit_some hfc
        have hpath : (goFoc hd (c2 :: rest) FileType.GAME p).2.path = hd.path :=
          (goFoc_fields hd _ _ _).2.1
        have hsplit2 := findChildSplit_parts b
          ((goFoc hd (c2 :: rest) FileType.GAME p).2) a hsplit.2.2
          (by rw [hpath]; exact hsplit.2.1)
        have hrec := ih hd p hlast'
        simp only [goFoc, hfc, ite_game_folder, FileData.children_mk, FileData.ftype_mk,
          FileData.path_mk, FileData.metadata_mk, hsplit2, hrec]
      | none =>
        have hnone := findChildSplit_none hfc
        have hfold : filename (goFoc
            (FileData.mk FileType.FOLDER (stemPath node.path ++ [c])
              (initMeta (stemPath node.path ++ [c])) [])
            (c2 :: rest) FileType.GAME p).2.path = c := by
          rw [(goFoc_fields _ _ _ _).2.1]
          simp [filename_concat]
        have hsplit2 := findChildSplit_parts node.children
          ((goFoc (FileData.mk FileType.FOLDER (stemPath node.path ++ [c])
              (initMeta (stemPath node.path ++ [c])) [])
            (c2 :: rest) FileType.GAME p).2) [] hnone hfold
        have hrec := ih (FileData.mk FileType.FOLDER (stemPath node.path ++ [c])
              (initMeta (stemPath node.path ++ [c])) []) p hlast'
        simp only [goFoc, hfc, ite_game_folder, FileData.children_mk, FileData.ftype_mk,
          FileData.path_mk, FileData.metadata_mk, hsplit2, hrec]

/-- C2 (amended): `findOrCreateFile` is idempotent for Game paths whose
final component survives canonicalization: if the containment check yields
a relative component list whose last component equals the filename of the
original `path` argument (which holds whenever the final component is not
itself a symlink or trailing-separator artifact), then calling the function
a second time on the tree returned by the first call returns the same entry
position and leaves the tree unchanged — no duplicate sibling is created. -/
theorem findOrCreateFile_game_idem
    (canon : List String → Option (List String)) (root : FileData)
    (path rel : List String)
    (hrel : removeCommonPath canon path root.path = some (rel, true))
    (hlast : rel = [] ∨ rel.getLast? = some (filename path)) :
    ∀ res t1, findOrCreateFile canon root path FileType.GAME = some (res, t1) →
      findOrCreateFile canon t1 path FileType.GAME = some (res, t1) := by
  intro res t1 h1
  have hpath : t1.path = root.path := by
    unfold findOrCreateFile at h1
    rw [hrel] at h1
    simp only [Option.some.injEq] at h1
    have := (goFoc_fields root rel FileType.GAME path).2.1
    rw [congrArg Prod.snd h1] at this
    exact this
  have hgo : goFoc root rel FileType.GAME path = (res, t1) := by
    unfold findOrCreateFile at h1
    rw [hrel] at h1
    simpa using h1
  have h2 : findOrCreateFile canon t1 path FileType.GAME
      = some (goFoc t1 rel FileType.GAME path) := by
    unfold findOrCreateFile
    rw [hpath, hrel]
  have hidem := goFoc_game_idem rel root path hlast
  rw [hgo] at hidem
  have hidem' : goFoc t1 rel FileType.GAME path = (res, t1) := hidem
  rw [h2, hidem']

/-- Root folder of the two-level example system (path `/roms`). -/
def rootTwoLevel : FileData := FileData.mk FileType.FOLDER ["/", "roms"] [] []

/-- Game path of the two-level example: `/roms/sub/a.nes`. -/
def pTwo : List String := ["/", "roms", "sub", "a.nes"]

/-- Canonicalization for the two-level example: both the system root and
the game path exist and are already canonical. -/
def canonTwoLevel (q : List String) : Option (List String) :=
  if q = ["/", "roms"] then some q
  else if q = pTwo then some pTwo
  else none

/-- Tree produced by the first `findOrCreateFile` call of the two-level
example: an intermediate folder (with the stem-joined path quirk) holding
the created game. -/
def tTwo : FileData :=
  FileData.mk FileType.FOLDER ["/", "roms"] []
    [FileData.mk FileType.FOLDER ["roms", "sub"] [("name", "sub")]
      [FileData.mk FileType.GAME pTwo [("name", "a")] []]]

theorem findOrCreateFile_game_idem_witness :
    findOrCreateFile canonTwoLevel rootTwoLevel pTwo FileType.GAME = some (some [0, 0], tTwo) ∧
    findOrCreateFile canonTwoLevel tTwo pTwo FileType.GAME = some (some [0, 0], tTwo) := by
  have h1 : findOrCreateFile canonTwoLevel rootTwoLevel pTwo FileType.GAME
      = some (some [0, 0], tTwo) := by rfl
  exact ⟨h1, findOrCreateFile_game_idem canonTwoLevel rootTwoLevel pTwo ["sub", "a.nes"]
    (by rfl) (Or.inr (by rfl)) (some [0, 0]) tTwo h1⟩

/-- Root folder of the symlink example system (path `/roms`). -/
def rootSym : FileData := FileData.mk FileType.FOLDER ["/", "roms"] [] []

/-- Game path of the symlink example: `/roms/link.nes`, a symlink. -/
def pSym : List String := ["/", "roms", "link.nes"]

/-- Canonicalization for the symlink example: `/roms/link.nes` is a symlink
resolving to `/roms/real.nes`, the root is canonical. -/
def canonSymlink (q : List String) : Option (List String) :=
  if q = ["/", "roms"] then some q
  else if q = pSym then some ["/", "roms", "real.nes"]
  else if q = ["/", "roms", "real.nes"] then some ["/", "roms", "real.nes"]
  else none

/-- The game entry created for the symlink path (its stored path is the
original argument, not the canonical form). -/
def gameSym : FileData := FileData.mk FileType.GAME pSym [("name", "link")] []

/-- Tree after the first call on the symlink example. -/
def tSym1 : FileData := FileData.mk FileType.FOLDER ["/", "roms"] [] [gameSym]

/-- Tree after the second call on the symlink example: a duplicate sibling. -/
def tSym2 : FileData := FileData.mk FileType.FOLDER ["/", "roms"] [] [gameSym, gameSym]

/-- C2 (counterexample to the claim as stated): when the Game path's final
component is a symlink, the entry is created under its original filename
`link.nes` while the walk looks for the canonical final component
`real.nes`, so the second call with the very same path does not find the
entry created by the first call: it mutates the tree and creates a
duplicate sibling. -/
theorem findOrCreateFile_game_not_idem :
    findOrCreateFile canonSymlink rootSym pSym FileType.GAME = some (some [0], tSym1) ∧
    findOrCreateFile canonSymlink tSym1 pSym FileType.GAME = some (some [1], tSym2) ∧
    tSym2.children.length ≠ tSym1.children.length := by
  refine ⟨by rfl, by rfl, by decide⟩

/-- C3 (amended): when the containment check succeeds and the component
walk fails to find a matching child — matching is by final path component
irrespective of the child's kind — at some component (intermediate or
last), `findOrCreateFile` with `kind = Folder` returns null and the tree is
returned exactly as it was: with a Folder request nothing is ever created
or modified. -/
theorem findOrCreateFile_folder_fails
    (canon : List String → Option (List String)) (root : FileData)
    (path rel : List String)
    (hrel : removeCommonPath canon path root.path = some (rel, true))
    (hmiss : walkFind root rel = none) :
    findOrCreateFile canon root path FileType.FOLDER = some (none, root) := by
  unfold findOrCreateFile
  rw [hrel]
  show some (goFoc root rel FileType.FOLDER path) = some (none, root)
  rw [goFoc_folder_pure rel root path, hmiss]

/-- Canonicalization for the flat example: root `/r` and file `/r/a`
exist and are canonical. -/
def canonFlat (q : List String) : Option (List String) :=
  if q = ["/", "r"] then some q
  else if q = ["/", "r", "a"] then some q
  else if q = ["/", "r", "b"] then some q
  else none

/-- A game entry `/r/a` sitting directly under the flat example root. -/
def gameFlat : FileData := FileData.mk FileType.GAME ["/", "r", "a"] [] []

/-- The flat example root `/r` with the single game child. -/
def rootFlat : FileData := FileData.mk FileType.FOLDER ["/", "r"] [] [gameFlat]

theorem findOrCreateFile_folder_fails_witness :
    findOrCreateFile canonFlat rootFlat ["/", "r", "b"] FileType.FOLDER
      = some (none, rootFlat) :=
  findOrCreateFile_folder_fails canonFlat rootFlat ["/", "r", "b"] ["b"] (by rfl) (by rfl)

/-- C3 (counterexample to the claim as stated): the walk matches children
by filename only, never by kind.  In a tree whose only entry at `/r/a` is a
*Game*, no matching *folder* Entry exists for the path `/r/a`, yet
`findOrCreateFile` with `kind = Folder` does not fail: it returns that Game
entry (position `[0]`) instead of null. -/
theorem findOrCreateFile_folder_returns_game :
    findOrCreateFile canonFlat rootFlat ["/", "r", "a"] FileType.FOLDER
      = some (some [0], rootFlat) ∧
    nodeAt rootFlat [0] = some gameFlat ∧
    gameFlat.ftype = FileType.GAME ∧
    rootFlat.children = [gameFlat] := by
  exact ⟨by rfl, by rfl, by rfl, by rfl⟩

/-- C4: whenever `findOrCreateFile` (with `kind = Game`) reaches an
intermediate component `c` with no matching child, it appends to the
current node exactly one new child whose path is the current node's path
*stem* joined with `c` — and, whenever stemming actually changes the
node's path, that is different from the node's full path joined with `c`. -/
theorem goFoc_intermediate_folder_path
    (node : FileData) (c c2 : String) (rest : List String) (p : List String)
    (hmiss : findChildSplit node.children c = none) :
    (goFoc node (c :: c2 :: rest) FileType.GAME p).2.children.length
        = node.children.length + 1 ∧
    (goFoc node (c :: c2 :: rest) FileType.GAME p).2.children.take node.children.length
        = node.children ∧
    (nodeAt (goFoc node (c :: c2 :: rest) FileType.GAME p).2
        [node.children.length]).map FileData.path = some (stemPath node.path ++ [c]) ∧
    (nodeAt (goFoc node (c :: c2 :: rest) FileType.GAME p).2
        [node.children.length]).map FileData.ftype = some FileType.FOLDER ∧
    (stemPath node.path ≠ node.path → stemPath node.path ++ [c] ≠ node.path ++ [c]) := by
  have hfields := goFoc_fields
    (FileData.mk FileType.FOLDER (stemPath node.path ++ [c])
      (initMeta (stemPath node.path ++ [c])) []) (c2 :: rest) FileType.GAME p
  simp only [goFoc, hmiss, ite_game_folder, FileData.children_mk, FileData.ftype_mk,
    FileData.path_mk, FileData.metadata_mk]
  refine ⟨by simp, by simp, ?_, ?_, ?_⟩
  · simp only [nodeAt, FileData.children_mk, List.getElem?_concat_length]
    simp [nodeAt, hfields.2.1]
  · simp only [nodeAt, FileData.children_mk, List.getElem?_concat_length]
    simp [nodeAt, hfields.1]
  · intro hne heq
    have := congrArg List.dropLast heq
    rw [List.dropLast_concat, List.dropLast_concat] at this
    exact hne this

theorem goFoc_intermediate_folder_path_witness :
    findChildSplit rootTwoLevel.children "sub" = none ∧
    (nodeAt (goFoc rootTwoLevel ["sub", "a.nes"] FileType.GAME pTwo).2 [0]).map FileData.path
      = some ["roms", "sub"] ∧
    (["roms", "sub"] : List String) ≠ ["/", "roms", "sub"] := by
  refine ⟨by rfl, ?_, by decide⟩
  exact (goFoc_intermediate_folder_path rootTwoLevel "sub" "a.nes" [] pTwo (by rfl)).2.2.1

/-- A node of the persisted XML document: element tag, text content, and
child elements (a distilled view of a `pugi::xml_node`; leaf children such
as `path` or `name` carry their text directly). -/
inductive XNode where
  | mk : String → String → List XNode → XNode

/-- Tag of an element. -/
def XNode.tag : XNode → String
  | .mk t _ _ => t

/-- Text content of an element. -/
def XNode.text : XNode → String
  | .mk _ x _ => x

/-- Child elements of an element. -/
def XNode.children : XNode → List XNode
  | .mk _ _ cs => cs

@[simp] theorem XNode.tag_mk (t x cs) : (XNode.mk t x cs).tag = t := rfl

@[simp] theorem XNode.text_mk (t x cs) : (XNode.mk t x cs).text = x := rfl

@[simp] theorem XNode.childrenOf_mk (t x cs) : (XNode.mk t x cs).children = cs := rfl

/-- `node.child(tag).text().get()`: text of the first child with the given
tag, `""` when there is none (pugixml's null-node semantics). -/
def childText (n : XNode) (tag : String) : String :=
  match n.children.find? (fun c => c.tag == tag) with
  | some c => c.text
  | none => ""

/-- Modelled from the spec: `MetaDataList::get` of the external metadata
model (§6) — the value stored for a key in the ordered mapping, `""` when
the key is absent (the string default). -/
def mdGet : List (String × String) → String → String
  | [], _ => ""
  | kv :: rest, k => if kv.1 = k then kv.2 else mdGet rest k

/-- Modelled from the spec: `MetaDataList::set` — replace the first
binding of the key, or append a new binding when the key is absent. -/
def mdSet : List (String × String) → String → String → List (String × String)
  | [], k, v => [(k, v)]
  | kv :: rest, k, v => if kv.1 = k then (k, v) :: rest else kv :: mdSet rest k v

/-- Modelled from the spec: `MetaDataList::createFromXML` — the metadata
parsed from an element's children other than its `path` child (§4.3 "the
element's remaining children"). -/
def mdFromXML (elem : XNode) : List (String × String) :=
  (elem.children.filter (fun c => c.tag ≠ "path")).map (fun c => (c.tag, c.text))

/-- The metadata-replacement step of `parseGamelist`
(`XMLReader.cpp:168-174`): remember the entry's current name, replace the
metadata wholesale with the parsed metadata, and restore the remembered
name when the parsed metadata has no (non-empty) name. -/
def loadEntryMetadata (old parsed : List (String × String)) : List (String × String) :=
  let defaultName := mdGet old "name"
  if mdGet parsed "name" = "" then mdSet parsed "name" defaultName else parsed

/-- The per-element body of the `parseGamelist` loop
(`XMLReader.cpp:151-175`) for one `game`/`folder` element: read the `path`
child, skip the element when the path does not exist on disk (`exs` is
`boost::filesystem::exists`), otherwise find-or-create the entry and
replace its metadata via `loadEntryMetadata`.  The result is `none` when
`fs::canonical` throws inside `findOrCreateFile` (which would abort the
whole parse); `some tree` is the tree after processing the element. -/
def parseEntryNode (canon : List String → Option (List String))
    (exs : List String → Bool) (tree : FileData) (t : FileType)
    (elem : XNode) : Option FileData :=
  let path := pathOfString (childText elem "path")
  if exs path = false then some tree
  else
    match findOrCreateFile canon tree path t with
    | none => none
    | some (none, tree1) => some tree1
    | some (some pos, tree1) =>
      some (modifyAt tree1 pos
        (fun fd => setMetadataFD fd (loadEntryMetadata fd.metadata (mdFromXML elem))))

theorem mdGet_mdSet_self (md : List (String × String)) (k v : String) :
    mdGet (mdSet md k v) k = v := by
  induction md with
  | nil => simp [mdSet, mdGet]
  | cons kv rest ih =>
    by_cases hk : kv.1 = k
    · simp [mdSet, hk, mdGet]
    · simp [mdSet, hk, mdGet, ih]

theorem mdGet_mdSet_ne (md : List (String × String)) (k v k' : String)
    (hne : k' ≠ k) : mdGet (mdSet md k v) k' = mdGet md k' := by
  have hkk : ¬ (k = k') := fun h => hne h.symm
  induction md with
  | nil =>
    simp only [mdSet, mdGet]
    rw [if_neg hkk]
  | cons kv rest ih =>
    by_cases hk : kv.1 = k
    · simp only [mdSet, if_pos hk, mdGet]
      rw [if_neg hkk, if_neg (by rw [hk]; exact hkk)]
    · simp only [mdSet, if_neg hk, mdGet]
      by_cases hk' : kv.1 = k'
      · rw [if_pos hk', if_pos hk']
      · rw [if_neg hk', if_neg hk', ih]

/-- C5: the loader's metadata update replaces an entry's metadata wholesale
with the metadata parsed from the element (`loadEntryMetadata`, used by
`parseEntryNode` on every successfully found-or-created entry): when the
parsed metadata carries a non-empty name, the result is exactly the parsed
metadata; when it does not, the result is the parsed metadata with only the
`"name"` key set back to the entry's previous name value — every other key
reads exactly as in the parsed metadata. -/
theorem loadEntryMetadata_spec (old parsed : List (String × String)) :
    (mdGet parsed "name" ≠ "" → loadEntryMetadata old parsed = parsed) ∧
    (mdGet parsed "name" = "" →
      mdGet (loadEntryMetadata old parsed) "name" = mdGet old "name" ∧
      ∀ k, k ≠ "name" → mdGet (loadEntryMetadata old parsed) k = mdGet parsed k) := by
  constructor
  · intro hne
    simp [loadEntryMetadata, hne]
  · intro hemp
    simp only [loadEntryMetadata, hemp, if_pos rfl]
    exact ⟨mdGet_mdSet_self parsed "name" (mdGet old "name"),
      fun k hk => mdGet_mdSet_ne parsed "name" (mdGet old "name") k hk⟩

theorem loadEntryMetadata_spec_witness :
    mdGet [("desc", "x")] "name" = "" ∧
    mdGet (loadEntryMetadata [("name", "Zelda")] [("desc", "x")]) "name" = "Zelda" ∧
    mdGet (loadEntryMetadata [("name", "Zelda")] [("desc", "x")]) "desc" = "x" := by
  have h := (loadEntryMetadata_spec [("name", "Zelda")] [("desc", "x")]).2 (by decide)
  exact ⟨by decide, h.1, h.2 "desc" (by decide)⟩

/-- C6: a `game`/`folder` element whose `path` child references a
filesystem path that does not currently exist is skipped by the loader:
`parseEntryNode` returns the tree unchanged — no entry is created or
modified for that element. -/
theorem parseEntryNode_stale_skip
    (canon : List String → Option (List String)) (exs : List String → Bool)
    (tree : FileData) (t : FileType) (elem : XNode)
    (hgone : exs (pathOfString (childText elem "path")) = false) :
    parseEntryNode canon exs tree t elem = some tree := by
  simp [parseEntryNode, hgone]

/-- A stale document element for the C6 witness: its path `/r/gone.nes`. -/
def staleElem : XNode :=
  XNode.mk "game" ""
    [XNode.mk "path" "/r/gone.nes" [], XNode.mk "name" "Gone" []]

/-- Existence check of the flat example filesystem: only `/r`, `/r/a` and
`/r/b` exist. -/
def exsFlat (q : List String) : Bool :=
  q = ["/", "r"] || q = ["/", "r", "a"] || q = ["/", "r", "b"]

theorem parseEntryNode_stale_skip_witness :
    exsFlat (pathOfString (childText staleElem "path")) = false ∧
    parseEntryNode canonFlat exsFlat rootFlat FileType.GAME staleElem = some rootFlat := by
  refine ⟨by decide, ?_⟩
  exact parseEntryNode_stale_skip canonFlat exsFlat rootFlat FileType.GAME staleElem (by decide)

/-- Modelled from the spec: `MetaDataList::appendToXML(node, true)` of the
external metadata model — append one child element per metadata key whose
value differs from the key's defined default, in metadata order (§4.4
"write all metadata key/value pairs (skipping values equal to their
defined default) as child elements, in metadata's canonical order").
`defaults` is the external per-key default assignment. -/
def metadataToXML (md : List (String × String)) (defaults : String → String) : List XNode :=
  (md.filter (fun kv => kv.2 ≠ defaults kv.1)).map (fun kv => XNode.mk kv.1 kv.2 [])

/-- The default-elision test of `addFileDataNode` (`XMLReader.cpp:207-209`):
the element's first child is its `name` child, there is exactly one child,
and that child's text equals the path-derived default name. -/
def isDefaultOnly (ns : List XNode) (clean : String) : Bool :=
  match ns with
  | [n] => n.tag == "name" && n.text == clean
  | _ => false

/-- `addFileDataNode` (`XMLReader.cpp:199-218`), expressed on the parent's
child list: append a fresh element carrying the non-default metadata; if
its only content is a single `name` child equal to the path-derived default
name, remove it again (net effect: nothing); otherwise prepend a `path`
child holding the entry's path in generic (slash-separated) form. -/
def addFileDataNode (parent : List XNode) (file : FileData) (tag : String)
    (defaults : String → String) : List XNode :=
  let mdx := metadataToXML file.metadata defaults
  if isDefaultOnly mdx (getCleanFileName file.path) then parent
  else parent ++ [XNode.mk tag "" (XNode.mk "path" (genericString file.path) [] :: mdx)]

/-- C7: for every entry serialized by the writer, if after writing the
non-default metadata the element's only content is a single `name` child
whose text equals the entry's path-derived default name, the element is
discarded entirely and nothing is written; otherwise a `path` child holding
the entry's path in slash-separated form is prepended and the element is
appended to the document. -/
theorem addFileDataNode_spec (parent : List XNode) (file : FileData) (tag : String)
    (defaults : String → String) :
    ((∃ cs, metadataToXML file.metadata defaults
        = [XNode.mk "name" (getCleanFileName file.path) cs]) →
      addFileDataNode parent file tag defaults = parent) ∧
    ((¬ ∃ cs, metadataToXML file.metadata defaults
        = [XNode.mk "name" (getCleanFileName file.path) cs]) →
      addFileDataNode parent file tag defaults
        = parent ++ [XNode.mk tag ""
            (XNode.mk "path" (genericString file.path) []
              :: metadataToXML file.metadata defaults)]) := by
  constructor
  · rintro ⟨cs, hmd⟩
    unfold addFileDataNode
    rw [hmd]
    simp [isDefaultOnly]
  · intro hno
    unfold addFileDataNode
    rw [if_neg]
    intro hdef
    match hmd : metadataToXML file.metadata defaults with
    | [] => rw [hmd] at hdef; simp [isDefaultOnly] at hdef
    | [XNode.mk t x cs] =>
      rw [hmd] at hdef
      simp only [isDefaultOnly, XNode.tag_mk, XNode.text_mk, Bool.and_eq_true, beq_iff_eq] at hdef
      exact hno ⟨cs, by rw [hmd, hdef.1, hdef.2]⟩
    | n1 :: n2 :: rest => rw [hmd] at hdef; simp [isDefaultOnly] at hdef

/-- An entry whose metadata is exactly the default-derived name (for the
C7 witness): path `/r/a`, name `a`. -/
def fileDefaultOnly : FileData :=
  FileData.mk FileType.GAME ["/", "r", "a"] [("name", "a")] []

/-- The all-empty default assignment (string metadata defaults). -/
def emptyDefaults : String → String := fun _ => ""

theorem addFileDataNode_spec_witness :
    addFileDataNode [] fileDefaultOnly "game" emptyDefaults = [] :=
  (addFileDataNode_spec [] fileDefaultOnly "game" emptyDefaults).1 ⟨[], by rfl⟩

/-- The path-match test of the `updateGamelist` removal scan
(`XMLReader.cpp:275-292`) for one document element: the element carries the
scanned tag, it has a `path` child, and that child's text either equals the
entry's generic path string or is related to it by the filesystem
equivalence check `equiv` (modelling
`fs::exists(a) && fs::exists(b) && fs::equivalent(a, b)`).  Elements with
no `path` child are logged and skipped, never removed. -/
def matchesNode (equiv : String → String → Bool) (tag gp : String) (n : XNode) : Bool :=
  n.tag == tag &&
    match n.children.find? (fun c => c.tag == "path") with
    | some pc => pc.text == gp || equiv pc.text gp
    | none => false

/-- The removal scan of `updateGamelist` (`XMLReader.cpp:275-292`): remove
the first element matching the entry and stop; leave everything else
untouched. -/
def removeFirstMatch (equiv : String → String → Bool) (tag gp : String) :
    List XNode → List XNode
  | [] => []
  | n :: rest =>
    if matchesNode equiv tag gp n then rest
    else n :: removeFirstMatch equiv tag gp rest

/-- Element tag used by the writer for an entry (`XMLReader.cpp:271`). -/
def tagOf (f : FileData) : String :=
  if f.ftype = FileType.GAME then "game" else "folder"

/-- One iteration of the `updateGamelist` loop (`XMLReader.cpp:269-298`)
over the document root's child list: remove the first element matching the
entry, then append the entry's freshly serialized element. -/
def updateStep (equiv : String → String → Bool) (defaults : String → String)
    (doc : List XNode) (f : FileData) : List XNode :=
  addFileDataNode (removeFirstMatch equiv (tagOf f) (genericString f.path) doc) f
    (tagOf f) defaults

/-- The document-reconciliation core of `updateGamelist`
(`XMLReader.cpp:261-298`): fold the per-entry remove-then-append step over
the recursive file list, starting from the parsed document root's children. -/
def updateGamelist (equiv : String → String → Bool) (defaults : String → String)
    (files : List FileData) (doc : List XNode) : List XNode :=
  files.foldl (updateStep equiv defaults) doc

theorem removeFirstMatch_no_match (equiv : String → String → Bool) (tag gp : String)
    (ns : List XNode) (h : ∀ n ∈ ns, matchesNode equiv tag gp n = false) :
    removeFirstMatch equiv tag gp ns = ns := by
  induction ns with
  | nil => rfl
  | cons n rest ih =>
    rw [removeFirstMatch, if_neg (by rw [h n (by simp)]; simp),
      ih (fun m hm => h m (by simp [hm]))]

theorem removeFirstMatch_first_hit (equiv : String → String → Bool) (tag gp : String)
    (pre : List XNode) (m : XNode) (post : List XNode)
    (hpre : ∀ n ∈ pre, matchesNode equiv tag gp n = false)
    (hm : matchesNode equiv tag gp m = true) :
    removeFirstMatch equiv tag gp (pre ++ m :: post) = pre ++ post := by
  induction pre with
  | nil => simp [removeFirstMatch, hm]
  | cons n rest ih =>
    rw [List.cons_append, removeFirstMatch, if_neg (by rw [hpre n (by simp)]; simp),
      ih (fun q hq => hpre q (by simp [hq])), List.cons_append]

theorem removeFirstMatch_mem (equiv : String → String → Bool) (tag gp : String)
    (ns : List XNode) (n : XNode) (hn : n ∈ ns)
    (hno : matchesNode equiv tag gp n = false) :
    n ∈ removeFirstMatch equiv tag gp ns := by
  induction ns with
  | nil => simp at hn
  | cons m rest ih =>
    rw [removeFirstMatch]
    by_cases hm : matchesNode equiv tag gp m
    · rw [if_pos hm]
      rcases List.mem_cons.mp hn with rfl | h
      · rw [hno] at hm; simp at hm
      · exact h
    · rw [if_neg hm]
      rcases List.mem_cons.mp hn with rfl | h
      · simp
      · simp [ih h]

theorem addFileDataNode_mem (parent : List XNode) (file : FileData) (tag : String)
    (defaults : String → String) (n : XNode) (hn : n ∈ parent) :
    n ∈ addFileDataNode parent file tag defaults := by
  unfold addFileDataNode
  by_cases h : isDefaultOnly (metadataToXML file.metadata defaults)
      (getCleanFileName file.path)
  · simpa [h] using hn
  · simp [h, hn]

/-- C8: the removal scan of the writer removes at most one element per
entry — when the document decomposes as a prefix with no match, the first
matching element, and a suffix, exactly that element is removed and the
scan stops (the suffix is kept verbatim); when nothing matches, the
document is untouched; and any element of the old document that matches no
current entry is still present in the final document after a full
`updateGamelist` pass. -/
theorem updateGamelist_frame :
    (∀ (equiv : String → String → Bool) (tag gp : String)
        (pre : List XNode) (m : XNode) (post : List XNode),
      (∀ n ∈ pre, matchesNode equiv tag gp n = false) →
      matchesNode equiv tag gp m = true →
      removeFirstMatch equiv tag gp (pre ++ m :: post) = pre ++ post) ∧
    (∀ (equiv : String → String → Bool) (tag gp : String) (ns : List XNode),
      (∀ n ∈ ns, matchesNode equiv tag gp n = false) →
      removeFirstMatch equiv tag gp ns = ns) ∧
    (∀ (equiv : String → String → Bool) (defaults : String → String)
        (files : List FileData) (doc : List XNode) (n : XNode),
      n ∈ doc →
      (∀ f ∈ files, matchesNode equiv (tagOf f) (genericString f.path) n = false) →
      n ∈ updateGamelist equiv defaults files doc) := by
  refine ⟨removeFirstMatch_first_hit, removeFirstMatch_no_match, ?_⟩
  intro equiv defaults files
  induction files with
  | nil => intro doc n hn _; exact hn
  | cons f fs ih =>
    intro doc n hn hno
    have h1 : n ∈ removeFirstMatch equiv (tagOf f) (genericString f.path) doc :=
      removeFirstMatch_mem equiv _ _ doc n hn (hno f (by simp))
    have h2 : n ∈ updateStep equiv defaults doc f :=
      addFileDataNode_mem _ f _ defaults n h1
    exact ih (updateStep equiv defaults doc f) n h2 (fun g hg => hno g (by simp [hg]))

/-- A legacy element matching no current entry (path `/r/old.nes`). -/
def legacyElem : XNode :=
  XNode.mk "game" ""
    [XNode.mk "path" "/r/old.nes" [], XNode.mk "name" "Old" []]

/-- A current entry at `/r/a` with a custom name. -/
def fileCustom : FileData :=
  FileData.mk FileType.GAME ["/", "r", "a.nes"] [("name", "Custom")] []

/-- Textual-only path matching: no two distinct path strings resolve to
the same file (the `fs::equivalent` disjunct never fires). -/
def noEquiv : String → String → Bool := fun _ _ => false

theorem updateGamelist_frame_witness :
    legacyElem ∈ updateGamelist noEquiv emptyDefaults [fileCustom] [legacyElem] := by
  refine updateGamelist_frame.2.2 noEquiv emptyDefaults [fileCustom] [legacyElem]
    legacyElem (by simp) ?_
  intro f hf
  rcases List.mem_singleton.mp hf with rfl
  decide

/-- The element freshly serialized for an entry when it is not elided:
tag, empty text, `path` child first, then the non-default metadata. -/
def freshNode (defaults : String → String) (f : FileData) : XNode :=
  XNode.mk (tagOf f) ""
    (XNode.mk "path" (genericString f.path) [] :: metadataToXML f.metadata defaults)

/-- What one writer step appends for an entry: nothing when the element is
default-only, the fresh element otherwise. -/
def optFresh (defaults : String → String) (f : FileData) : List XNode :=
  if isDefaultOnly (metadataToXML f.metadata defaults) (getCleanFileName f.path) then []
  else [freshNode defaults f]

/-- The accumulated removals of a writer pass, without the appends. -/
def residue (equiv : String → String → Bool) (files : List FileData)
    (doc : List XNode) : List XNode :=
  files.foldl (fun d f => removeFirstMatch equiv (tagOf f) (genericString f.path) d) doc

/-- The accumulated appends of a writer pass, in entry order. -/
def freshes (defaults : String → String) : List FileData → List XNode
  | [] => []
  | f :: fs => optFresh defaults f ++ freshes defaults fs

/-- Two entries are distinguishable by the writer's textual matching when
their tags or their generic path strings differ. -/
def distinctKey (f g : FileData) : Prop :=
  tagOf f ≠ tagOf g ∨ genericString f.path ≠ genericString g.path

theorem distinctKey_symm {f g : FileData} (h : distinctKey f g) : distinctKey g f := by
  rcases h with h | h
  · exact Or.inl (Ne.symm h)
  · exact Or.inr (Ne.symm h)

theorem addFileDataNode_eq_optFresh (parent : List XNode) (f : FileData)
    (defaults : String → String) :
    addFileDataNode parent f (tagOf f) defaults = parent ++ optFresh defaults f := by
  unfold addFileDataNode optFresh freshNode
  by_cases h : isDefaultOnly (metadataToXML f.metadata defaults) (getCleanFileName f.path)
  · rw [if_pos h, if_pos h]
    simp
  · rw [if_neg h, if_neg h]

theorem matchesNode_freshNode (equiv : String → String → Bool) (tag gp : String)
    (defaults : String → String) (g : FileData) :
    matchesNode equiv tag gp (freshNode defaults g)
      = ((tagOf g == tag) &&
          ((genericString g.path == gp) || equiv (genericString g.path) gp)) := by
  unfold matchesNode freshNode
  rw [XNode.childrenOf_mk, List.find?_cons_of_pos _ (by simp)]
  simp

theorem matchB_fresh_self (defaults : String → String) (f : FileData) :
    matchesNode noEquiv (tagOf f) (genericString f.path) (freshNode defaults f) = true := by
  rw [matchesNode_freshNode]
  simp

theorem matchB_fresh_ne (defaults : String → String) (f g : FileData)
    (h : distinctKey f g) :
    matchesNode noEquiv (tagOf f) (genericString f.path) (freshNode defaults g) = false := by
  rw [matchesNode_freshNode]
  rcases h with h | h
  · simp [beq_eq_false_iff_ne, Ne.symm h]
  · simp [noEquiv, beq_eq_false_iff_ne, Ne.symm h]

theorem optFresh_mem {defaults : String → String} {g : FileData} {n : XNode}
    (h : n ∈ optFresh defaults g) : n = freshNode defaults g := by
  unfold optFresh at h
  split at h
  · simp at h
  · simpa using h

theorem freshes_no_match (defaults : String → String) (f : FileData) :
    ∀ (fs : List FileData), (∀ g ∈ fs, distinctKey f g) →
      ∀ n ∈ freshes defaults fs,
        matchesNode noEquiv (tagOf f) (genericString f.path) n = false
  | [], _, n, hn => by simp [freshes] at hn
  | g :: gs, hdk, n, hn => by
    rw [freshes] at hn
    rcases List.mem_append.mp hn with h | h
    · rw [optFresh_mem h]
      exact matchB_fresh_ne defaults f g (hdk g (by simp))
    · exact freshes_no_match defaults f gs (fun q hq => hdk q (by simp [hq])) n h

theorem removeFirstMatch_append_right (equiv : String → String → Bool) (tag gp : String)
    (X F : List XNode) (hF : ∀ n ∈ F, matchesNode equiv tag gp n = false) :
    removeFirstMatch equiv tag gp (X ++ F) = removeFirstMatch equiv tag gp X ++ F := by
  induction X with
  | nil => simp [removeFirstMatch, removeFirstMatch_no_match equiv tag gp F hF]
  | cons n rest ih =>
    by_cases hn : matchesNode equiv tag gp n
    · simp [removeFirstMatch, hn]
    · simp [removeFirstMatch, hn, ih]

theorem removeFirstMatch_sublist (equiv : String → String → Bool) (tag gp : String) :
    ∀ ns : List XNode, List.Sublist (removeFirstMatch equiv tag gp ns) ns
  | [] => by simp [removeFirstMatch]
  | n :: rest => by
    rw [removeFirstMatch]
    by_cases hn : matchesNode equiv tag gp n
    · rw [if_pos hn]
      exact (List.Sublist.refl rest).cons n
    · rw [if_neg hn]
      exact (removeFirstMatch_sublist equiv tag gp rest).cons₂ n

theorem countP_removeFirstMatch (equiv : String → String → Bool) (tag gp : String) :
    ∀ ns : List XNode,
      ns.countP (matchesNode equiv tag gp) ≤ 1 →
      (removeFirstMatch equiv tag gp ns).countP (matchesNode equiv tag gp) = 0
  | [], _ => by simp [removeFirstMatch]
  | n :: rest, hle => by
    rw [removeFirstMatch]
    by_cases hn : matchesNode equiv tag gp n
    · rw [if_pos hn]
      rw [List.countP_cons_of_pos _ _ hn] at hle
      omega
    · rw [if_neg hn, List.countP_cons_of_neg _ _ hn]
      rw [List.countP_cons_of_neg _ _ hn] at hle
      exact countP_removeFirstMatch equiv tag gp rest hle

theorem residue_sublist (equiv : String → String → Bool) :
    ∀ (fs : List FileData) (doc : List XNode), List.Sublist (residue equiv fs doc) doc
  | [], doc => by simp [residue]
  | f :: gs, doc => by
    have h1 : residue equiv (f :: gs) doc
        = residue equiv gs (removeFirstMatch equiv (tagOf f) (genericString f.path) doc) := rfl
    rw [h1]
    exact (residue_sublist equiv gs _).trans
      (removeFirstMatch_sublist equiv (tagOf f) (genericString f.path) doc)

theorem residue_no_match :
    ∀ (fs : List FileData) (doc : List XNode),
      (∀ f ∈ fs, doc.countP (matchesNode noEquiv (tagOf f) (genericString f.path)) ≤ 1) →
      ∀ f ∈ fs, ∀ n ∈ residue noEquiv fs doc,
        matchesNode noEquiv (tagOf f) (genericString f.path) n = false
  | [], doc, _, f, hf => by simp at hf
  | g :: gs, doc, hle, f, hf => by
    have hres : residue noEquiv (g :: gs) doc
        = residue noEquiv gs (removeFirstMatch noEquiv (tagOf g) (genericString g.path) doc) := rfl
    rcases List.mem_cons.mp hf with rfl | hf'
    · intro n hn
      have h0 : (removeFirstMatch noEquiv (tagOf f) (genericString f.path) doc).countP
          (matchesNode noEquiv (tagOf f) (genericString f.path)) = 0 :=
        countP_removeFirstMatch _ _ _ doc (hle f (by simp))
      have hsub : List.Sublist
          (residue noEquiv gs
            (removeFirstMatch noEquiv (tagOf f) (genericString f.path) doc))
          (removeFirstMatch noEquiv (tagOf f) (genericString f.path) doc) :=
        residue_sublist noEquiv gs _
      have h0' : (residue noEquiv gs
          (removeFirstMatch noEquiv (tagOf f) (genericString f.path) doc)).countP
          (matchesNode noEquiv (tagOf f) (genericString f.path)) = 0 :=
        Nat.le_zero.mp (h0 ▸ hsub.countP_le _)
      rw [hres] at hn
      have := List.countP_eq_zero.mp h0' n hn
      simpa using this
    · intro n hn
      rw [hres] at hn
      refine residue_no_match gs _ ?_ f hf' n hn
      intro q hq
      calc (removeFirstMatch noEquiv (tagOf g) (genericString g.path) doc).countP
            (matchesNode noEquiv (tagOf q) (genericString q.path))
          ≤ doc.countP (matchesNode noEquiv (tagOf q) (genericString q.path)) :=
            (removeFirstMatch_sublist noEquiv _ _ doc).countP_le _
        _ ≤ 1 := hle q (by simp [hq])

theorem updateGamelist_run1 (defaults : String → String) :
    ∀ (fs : List FileData) (X F : List XNode),
      (∀ f ∈ fs, ∀ n ∈ F, matchesNode noEquiv (tagOf f) (genericString f.path) n = false) →
      fs.Pairwise distinctKey →
      updateGamelist noEquiv defaults fs (X ++ F)
        = residue noEquiv fs X ++ F ++ freshes defaults fs
  | [], X, F, _, _ => by simp [updateGamelist, residue, freshes]
  | f :: gs, X, F, hF, hpw => by
    obtain ⟨hfgs, hpw'⟩ := List.pairwise_cons.mp hpw
    have hstep : updateStep noEquiv defaults (X ++ F) f
        = removeFirstMatch noEquiv (tagOf f) (genericString f.path) X
            ++ (F ++ optFresh defaults f) := by
      unfold updateStep
      rw [removeFirstMatch_append_right _ _ _ X F (fun n hn => hF f (by simp) n hn),
        addFileDataNode_eq_optFresh, List.append_assoc]
    have hF' : ∀ g ∈ gs, ∀ n ∈ F ++ optFresh defaults f,
        matchesNode noEquiv (tagOf g) (genericString g.path) n = false := by
      intro g hg n hn
      rcases List.mem_append.mp hn with h | h
      · exact hF g (by simp [hg]) n h
      · rw [optFresh_mem h]
        exact matchB_fresh_ne defaults g f (distinctKey_symm (hfgs g hg))
    have h1 : updateGamelist noEquiv defaults (f :: gs) (X ++ F)
        = updateGamelist noEquiv defaults gs (updateStep noEquiv defaults (X ++ F) f) := rfl
    rw [h1, hstep,
      updateGamelist_run1 defaults gs
        (removeFirstMatch noEquiv (tagOf f) (genericString f.path) X)
        (F ++ optFresh defaults f) hF' hpw']
    have h2 : residue noEquiv (f :: gs) X
        = residue noEquiv gs (removeFirstMatch noEquiv (tagOf f) (genericString f.path) X) := rfl
    rw [h2, freshes]
    simp [List.append_assoc]

theorem updateGamelist_run2 (defaults : String → String) :
    ∀ (fs : List FileData) (A D : List XNode),
      fs.Pairwise distinctKey →
      (∀ f ∈ fs, ∀ n ∈ A, matchesNode noEquiv (tagOf f) (genericString f.path) n = false) →
      (∀ f ∈ fs, ∀ n ∈ D, matchesNode noEquiv (tagOf f) (genericString f.path) n = false) →
      updateGamelist noEquiv defaults fs (A ++ freshes defaults fs ++ D)
        = A ++ D ++ freshes defaults fs
  | [], A, D, _, _, _ => by simp [updateGamelist, freshes]
  | f :: gs, A, D, hpw, hA, hD => by
    obtain ⟨hfgs, hpw'⟩ := List.pairwise_cons.mp hpw
    have hgsfresh : ∀ n ∈ freshes defaults gs,
        matchesNode noEquiv (tagOf f) (genericString f.path) n = false :=
      freshes_no_match defaults f gs hfgs
    have hfold : updateGamelist noEquiv defaults (f :: gs) (A ++ freshes defaults (f :: gs) ++ D)
        = updateGamelist noEquiv defaults gs
            (updateStep noEquiv defaults (A ++ freshes defaults (f :: gs) ++ D) f) := rfl
    by_cases hdef : isDefaultOnly (metadataToXML f.metadata defaults)
        (getCleanFileName f.path)
    · have hopt : optFresh defaults f = [] := by simp [optFresh, hdef]
      have hfr : freshes defaults (f :: gs) = freshes defaults gs := by
        rw [freshes, hopt, List.nil_append]
      have hnomatch : ∀ n ∈ A ++ freshes defaults gs ++ D,
          matchesNode noEquiv (tagOf f) (genericString f.path) n = false := by
        intro n hn
        rcases List.mem_append.mp hn with h | h
        · rcases List.mem_append.mp h with h' | h'
          · exact hA f (by simp) n h'
          · exact hgsfresh n h'
        · exact hD f (by simp) n h
      have hstep : updateStep noEquiv defaults (A ++ freshes defaults gs ++ D) f
          = A ++ freshes defaults gs ++ D := by
        unfold updateStep
        rw [removeFirstMatch_no_match _ _ _ _ hnomatch,
          addFileDataNode_eq_optFresh, hopt, List.append_nil]
      rw [hfold, hfr, hstep,
        updateGamelist_run2 defaults gs A D hpw'
          (fun g hg => hA g (by simp [hg])) (fun g hg => hD g (by simp [hg]))]
    · have hopt : optFresh defaults f = [freshNode defaults f] := by simp [optFresh, hdef]
      have harr : A ++ freshes defaults (f :: gs) ++ D
          = A ++ freshNode defaults f :: (freshes defaults gs ++ D) := by
        rw [freshes, hopt]
        simp [List.append_assoc]
      have hpre : ∀ n ∈ A, matchesNode noEquiv (tagOf f) (genericString f.path) n = false :=
        hA f (by simp)
      have hstep : updateStep noEquiv defaults (A ++ freshes defaults (f :: gs) ++ D) f
          = A ++ freshes defaults gs ++ (D ++ [freshNode defaults f]) := by
        unfold updateStep
        rw [harr, removeFirstMatch_first_hit _ _ _ A _ _ hpre (matchB_fresh_self defaults f),
          addFileDataNode_eq_optFresh, hopt]
        simp [List.append_assoc]
      have hD' : ∀ g ∈ gs, ∀ n ∈ D ++ [freshNode defaults f],
          matchesNode noEquiv (tagOf g) (genericString g.path) n = false := by
        intro g hg n hn
        rcases List.mem_append.mp hn with h | h
        · exact hD g (by simp [hg]) n h
        · rw [List.mem_singleton.mp h]
          exact matchB_fresh_ne defaults g f (distinctKey_symm (hfgs g hg))
      rw [hfold, hstep,
        updateGamelist_run2 defaults gs A (D ++ [freshNode defaults f]) hpw'
          (fun g hg => hA g (by simp [hg])) hD']
      rw [freshes, hopt]
      simp [List.append_assoc]

/-- C9 (amended): re-running the writer with no tree changes leaves the
document unchanged, provided the matching is purely textual (no two
distinct stored path strings resolve to the same on-disk file), the
entries have pairwise distinct tag/path-string keys, and the original
document holds at most one element matching each entry.  The first pass
then normalizes the document into non-matching legacy elements followed by
the fresh per-entry elements, and the second pass removes and re-appends
each fresh element in the same order, reproducing the document exactly. -/
theorem updateGamelist_write_stable (defaults : String → String)
    (files : List FileData) (doc : List XNode)
    (hpw : files.Pairwise distinctKey)
    (hle : ∀ f ∈ files,
      doc.countP (matchesNode noEquiv (tagOf f) (genericString f.path)) ≤ 1) :
    updateGamelist noEquiv defaults files (updateGamelist noEquiv defaults files doc)
      = updateGamelist noEquiv defaults files doc := by
  have hrun1 : updateGamelist noEquiv defaults files doc
      = residue noEquiv files doc ++ freshes defaults files := by
    have h := updateGamelist_run1 defaults files doc [] (by intro f hf n hn; simp at hn) hpw
    simpa using h
  have hA : ∀ f ∈ files, ∀ n ∈ residue noEquiv files doc,
      matchesNode noEquiv (tagOf f) (genericString f.path) n = false :=
    residue_no_match files doc hle
  rw [hrun1]
  have h2 := updateGamelist_run2 defaults files (residue noEquiv files doc) [] hpw hA
    (by intro f hf n hn; simp at hn)
  simpa using h2

/-- First of two legacy elements for the duplicate-document example, both
matching `/r/a.nes`. -/
def oldDupA : XNode :=
  XNode.mk "game" "" [XNode.mk "path" "/r/a.nes" [], XNode.mk "desc" "one" []]

/-- Second legacy element for the duplicate-document example. -/
def oldDupB : XNode :=
  XNode.mk "game" "" [XNode.mk "path" "/r/a.nes" [], XNode.mk "desc" "two" []]

/-- The element freshly written for `fileCustom`. -/
def freshCustom : XNode :=
  XNode.mk "game" "" [XNode.mk "path" "/r/a.nes" [], XNode.mk "name" "Custom" []]

/-- C9 (counterexample to the claim as stated): when the existing document
holds two elements matching the same entry, the first pass removes only the
first one, so the second pass removes the surviving duplicate and the
document still changes: after pass one the document is
`[oldDupB, freshCustom]`, after pass two it is `[freshCustom, freshCustom]`. -/
theorem updateGamelist_not_stable :
    updateGamelist noEquiv emptyDefaults [fileCustom] [oldDupA, oldDupB]
      = [oldDupB, freshCustom] ∧
    updateGamelist noEquiv emptyDefaults [fileCustom] [oldDupB, freshCustom]
      = [freshCustom, freshCustom] ∧
    ([oldDupB, freshCustom] : List XNode) ≠ [freshCustom, freshCustom] := by
  refine ⟨by rfl, by rfl, ?_⟩
  intro h
  simp only [freshCustom, oldDupB, List.cons.injEq, XNode.mk.injEq, and_true, true_and] at h
  simp at h

theorem updateGamelist_write_stable_witness :
    updateGamelist noEquiv emptyDefaults [fileCustom]
        (updateGamelist noEquiv emptyDefaults [fileCustom] [oldDupA])
      = updateGamelist noEquiv emptyDefaults [fileCustom] [oldDupA] := by
  refine updateGamelist_write_stable emptyDefaults [fileCustom] [oldDupA] ?_ ?_
  · exact List.pairwise_singleton distinctKey fileCustom
  · intro f hf
    rcases List.mem_singleton.mp hf with rfl
    decide
